import Mathlib

/-!
Verification of the cxxstreams pull-based stream pipeline
(src/include/cxxstreams/stream.hpp).

The embedding models a streamable as a state type together with a pull-next
operation, mirroring the single capability every stage exposes: pull-next
returns an optional element and the successor state (the C++ code mutates
the stage in place; here state is passed explicitly).  A rank function with
a decrease proof on successful pulls reflects that every source bottoms out
at a finite cursor range, which is what makes the terminal driving loops
terminate.
-/

/-- A streamable per the stage contract: pull-next yields an optional element
and the successor state.  The rank witnesses finiteness of the underlying
sequence: every successful pull strictly decreases it. -/
structure PullSystem (T : Type) where
  State : Type
  next : State → Option T × State
  rank : State → Nat
  rank_decr : ∀ s v t, next s = (some v, t) → rank t < rank s

/-- Modelled from the spec: iterator_streamable.hpp is not under src.
Spec 4.1, cursor-pair adapter: holds a begin and end cursor; each pull
compares them, and if unequal dereferences begin, advances it and returns
the value; if equal returns empty and stays empty.  The remaining range
[begin, end) is modelled as the list of elements not yet pulled. -/
def listPull (T : Type) : PullSystem T where
  State := List T
  next s :=
    match s with
    | [] => (none, [])
    | x :: xs => (some x, xs)
  rank := List.length
  rank_decr := by
    intro s v t h
    cases s with
    | nil => simp at h
    | cons x xs =>
      simp only [Prod.mk.injEq] at h
      simp [← h.2]

/-- Driving loop of count (source lines 168-179): while the pulled element is
present, increment the result and pull again. -/
def countLoop {T : Type} (P : PullSystem T) (result : Nat) (s : P.State) :
    Nat × P.State :=
  match h : P.next s with
  | (none, t) => (result, t)
  | (some _, t) => countLoop P (result + 1) t
termination_by P.rank s
decreasing_by exact P.rank_decr s _ t h

/-- count (source lines 168-179): result starts at 0, then the chain is pulled
until empty, counting elements. -/
def Stream.count {T : Type} (P : PullSystem T) (s : P.State) : Nat × P.State :=
  countLoop P 0 s

/-- Modelled from the spec: limiting_stream.hpp is not under src.
Spec 4.5, Limit stage: state is the owned upstream stage, a maximum count
and a consumed-so-far counter starting at 0.  pull-next returns empty
unconditionally once the counter has reached the maximum, never pulling
upstream again; otherwise it pulls upstream, propagates empty, or
increments the counter and returns the value.  The state pairs the
upstream state with the counter; max_count is the stage's fixed maximum. -/
def limitPull {T : Type} (P : PullSystem T) (max_count : Nat) : PullSystem T where
  State := P.State × Nat
  next s :=
    if max_count ≤ s.2 then (none, s)
    else
      match P.next s.1 with
      | (none, t) => (none, (t, s.2))
      | (some v, t) => (some v, (t, s.2 + 1))
  rank s := P.rank s.1
  rank_decr := by
    intro s v t h
    by_cases hc : max_count ≤ s.2
    · simp [hc] at h
    · simp only [hc, if_false] at h
      cases hn : P.next s.1 with
      | mk o u =>
        cases o with
        | none => simp [hn] at h
        | some w =>
          simp only [hn, Prod.mk.injEq] at h
          have := P.rank_decr s.1 w u hn
          cases h.2
          simpa using this

/-- limit (source lines 65-67): moves the current stage into a limiting
stage capped at max_count elements. -/
def Stream.limit {T : Type} (P : PullSystem T) (max_count : Nat) (s : P.State) :
    PullSystem T × (P.State × Nat) :=
  (limitPull P max_count, (s, 0))

/-- find_first (source lines 69-71): a single pull-next on the chain. -/
def Stream.find_first {T : Type} (P : PullSystem T) (s : P.State) :
    Option T × P.State :=
  P.next s

/-- Driving loop of reduce (source lines 86-89): while the pulled element is
present, fold it into the accumulator and pull again. -/
def reduceLoop {T : Type} (P : PullSystem T) (f : T → T → T) (acc : T)
    (s : P.State) : T × P.State :=
  match h : P.next s with
  | (none, t) => (acc, t)
  | (some v, t) => reduceLoop P f (f acc v) t
termination_by P.rank s
decreasing_by exact P.rank_decr s _ t h

/-- reduce (source lines 73-92): pull the first element; if absent return
empty, otherwise seed the accumulator with it and fold every subsequent
element into it, left to right, in pull order. -/
def Stream.reduce {T : Type} (P : PullSystem T) (f : T → T → T) (s : P.State) :
    Option T × P.State :=
  match P.next s with
  | (none, t) => (none, t)
  | (some v, t) =>
    let r := reduceLoop P f v t
    (some r.1, r.2)

/-- sum (source lines 94-100): reduce with the lambda returning a + b. -/
def Stream.sum {T : Type} [Add T] (P : PullSystem T) (s : P.State) :
    Option T × P.State :=
  Stream.reduce P (fun a b => a + b) s

/-- Driving loop of min (source lines 115-130).  has_lth mirrors
concepts::has_lth of the element type; the if-constexpr keeps the branch
the source instantiates: with has_lth the new value replaces the running
result when value < result, otherwise when NOT (value > result). -/
def minLoop {T : Type} (P : PullSystem T) (has_lth : Bool) (lt gt : T → T → Bool)
    (result : T) (s : P.State) : T × P.State :=
  match h : P.next s with
  | (none, t) => (result, t)
  | (some value, t) =>
    minLoop P has_lth lt gt
      (if has_lth then (if lt value result then value else result)
       else (if !(gt value result) then value else result)) t
termination_by P.rank s
decreasing_by exact P.rank_decr s _ t h

/-- min (source lines 102-133): pull the first element; if absent return
empty, otherwise seed the running result with it and run the comparison
loop over the remaining elements. -/
def Stream.min {T : Type} (P : PullSystem T) (has_lth : Bool)
    (lt gt : T → T → Bool) (s : P.State) : Option T × P.State :=
  match P.next s with
  | (none, t) => (none, t)
  | (some v, t) =>
    let r := minLoop P has_lth lt gt v t
    (some r.1, r.2)

/-- Driving loop of max (source lines 148-163).  The if-constexpr again
branches on has_lth, exactly as written in the source: with has_lth the new
value replaces the running result when value > result, otherwise when
NOT (value < result). -/
def maxLoop {T : Type} (P : PullSystem T) (has_lth : Bool) (lt gt : T → T → Bool)
    (result : T) (s : P.State) : T × P.State :=
  match h : P.next s with
  | (none, t) => (result, t)
  | (some value, t) =>
    maxLoop P has_lth lt gt
      (if has_lth then (if gt value result then value else result)
       else (if !(lt value result) then value else result)) t
termination_by P.rank s
decreasing_by exact P.rank_decr s _ t h

/-- max (source lines 135-166): pull the first element; if absent return
empty, otherwise seed the running result with it and run the comparison
loop over the remaining elements. -/
def Stream.max {T : Type} (P : PullSystem T) (has_lth : Bool)
    (lt gt : T → T → Bool) (s : P.State) : Option T × P.State :=
  match P.next s with
  | (none, t) => (none, t)
  | (some v, t) =>
    let r := maxLoop P has_lth lt gt v t
    (some r.1, r.2)

/-- Driving loop of collect (source lines 188-197): while the pulled element
is present, insert it at the back of the result container (push_back-style
insertion in the list model) and pull again. -/
def collectLoop {T : Type} (P : PullSystem T) (result : List T) (s : P.State) :
    List T × P.State :=
  match h : P.next s with
  | (none, t) => (result, t)
  | (some v, t) => collectLoop P (result ++ [v]) t
termination_by P.rank s
decreasing_by exact P.rank_decr s _ t h

/-- collect (source lines 181-200): default-construct the target container,
then pull until exhaustion, inserting every element; the target container
is modelled as a list, insertion as appending at the back. -/
def Stream.collect {T : Type} (P : PullSystem T) (s : P.State) :
    List T × P.State :=
  collectLoop P [] s

/-- make_stream (source lines 203-207): builds a basic stream over the
cursor pair container.cbegin()/container.cend().  The container and the
range it delimits are modelled as the list of its elements in forward
order; the initial state of the resulting pipeline is that list.
BasicStream is modelled from the spec (basic_stream.hpp is not under src):
spec 4.2, a root stage simply forwarding pull-next to its streamable. -/
def make_stream {T : Type} (container : List T) : List T :=
  container

/-!
Compile-time instantiation model.

min and max are guarded by a static_assert requiring the element type to
provide operator< or operator> (source lines 103 and 136), and the body
selects a branch with if-constexpr on concepts::has_lth.  The branch the
instantiation takes names one concrete comparison operator; the
instantiation is well-formed only when the element type actually provides
that operator.  The model records which of the two operators a type
provides and which operator each taken branch applies.
-/

/-- The two ordering operators the concepts query: operator< and operator>. -/
inductive CmpOp where
  | lth
  | gth
deriving DecidableEq

/-- Which ordering operators an element type provides (concepts::has_lth
and concepts::has_gth queried by the static_assert and the if-constexpr). -/
structure CmpAvail where
  has_lth : Bool
  has_gth : Bool

/-- Whether the element type provides the given operator. -/
def CmpAvail.provides (a : CmpAvail) : CmpOp → Bool
  | CmpOp.lth => a.has_lth
  | CmpOp.gth => a.has_gth

/-- The static_assert guarding min and max (source lines 103 and 136): the
element type implements operator< or operator>. -/
def CmpAvail.minmax_allowed (a : CmpAvail) : Bool :=
  a.has_lth || a.has_gth

/-- The comparison operator the taken if-constexpr branch of min applies
(source lines 118-127): with has_lth the branch evaluates value < result,
otherwise it evaluates value > result. -/
def minBranchUses (has_lth : Bool) : CmpOp :=
  if has_lth then CmpOp.lth else CmpOp.gth

/-- The comparison operator the taken if-constexpr branch of max applies
(source lines 151-160): with has_lth the branch evaluates value > result,
otherwise it evaluates value < result. -/
def maxBranchUses (has_lth : Bool) : CmpOp :=
  if has_lth then CmpOp.gth else CmpOp.lth

/-- An instantiation of min for a type with the given operators is
well-formed when the operator its taken branch applies is provided. -/
def minInstantiationOk (a : CmpAvail) : Bool :=
  a.provides (minBranchUses a.has_lth)

/-- An instantiation of max for a type with the given operators is
well-formed when the operator its taken branch applies is provided. -/
def maxInstantiationOk (a : CmpAvail) : Bool :=
  a.provides (maxBranchUses a.has_lth)

/-!
Model of the constraint on filter.

The requires-clause on filter (source lines 53-54) is
is_convertible_v of the callable to std function void(T ref); the spec
instead demands convertibility to a function T to bool.  A unary callable
is abstracted by how it takes its parameter and what it returns; the two
convertibility predicates follow the standard rule for constructing a
std function object: the callable must be invocable with the declared
argument (an lvalue for a T-reference parameter, an rvalue for a by-value
T parameter) and its result must be convertible to the declared return
type, where every result converts to void (the result is discarded) and
only a bool-returning callable converts to bool.
-/

/-- How a unary C++ callable declares its parameter. -/
inductive ParamMode where
  | byValue
  | byLRef
  | byConstLRef
  | byRRef
deriving DecidableEq

/-- What a unary C++ callable returns. -/
inductive RetKind where
  | retBool
  | retVoid
deriving DecidableEq

/-- A unary callable over the element type, abstracted to its shape. -/
structure Callable where
  param : ParamMode
  ret : RetKind
deriving DecidableEq

/-- Invocability with an lvalue of the element type: a non-const lvalue
reference, const lvalue reference and by-value parameter all bind an
lvalue; an rvalue-reference parameter does not. -/
def invocableWithLValue : ParamMode → Bool
  | ParamMode.byValue => true
  | ParamMode.byLRef => true
  | ParamMode.byConstLRef => true
  | ParamMode.byRRef => false

/-- Invocability with an rvalue of the element type: by-value, const lvalue
reference and rvalue-reference parameters bind an rvalue; a non-const
lvalue reference does not. -/
def invocableWithRValue : ParamMode → Bool
  | ParamMode.byValue => true
  | ParamMode.byLRef => false
  | ParamMode.byConstLRef => true
  | ParamMode.byRRef => true

/-- Whether the callable's result converts to bool. -/
def retConvertsToBool : RetKind → Bool
  | RetKind.retBool => true
  | RetKind.retVoid => false

/-- The requires-clause of filter as written in the source (line 54):
convertibility to std function void(T ref) demands invocability with an
lvalue T; the returned value is discarded, so the return kind is not
constrained. -/
def filterAccepts (f : Callable) : Bool :=
  invocableWithLValue f.param

/-- The constraint the spec states for filter: convertibility to a
function from T to bool, i.e. to std function bool(T): invocability with a
T rvalue (the wrapper forwards its by-value argument) and a result
convertible to bool. -/
def predicateShape (f : Callable) : Bool :=
  invocableWithRValue f.param && retConvertsToBool f.ret

/-!
Model of the make_reverse_stream declaration (source lines 209-213).

The declared return type names the streamable's iterator type; the
returned expression builds the streamable from a concrete cursor pair.
IteratorStreamable is modelled from the spec (iterator_streamable.hpp is
not under src): spec 4.1, it is parameterized by the cursor type of the
pair it holds, and a standard container's const_iterator and
const_reverse_iterator are distinct, unrelated cursor types.
-/

/-- The cursor type over which an IteratorStreamable is instantiated. -/
inductive IterTag where
  | const_iterator
  | const_reverse_iterator
deriving DecidableEq

/-- The iterator type named by the declared return type of
make_reverse_stream (source line 211): typename C of T const_iterator. -/
def make_reverse_stream_declared : IterTag :=
  IterTag.const_iterator

/-- The iterator type of the streamable the return statement of
make_reverse_stream constructs (source line 212): the type of
container.crbegin() and container.crend(). -/
def make_reverse_stream_constructed : IterTag :=
  IterTag.const_reverse_iterator

/-- The iterator type named by the declared return type of make_stream
(source line 205). -/
def make_stream_declared : IterTag :=
  IterTag.const_iterator

/-- The iterator type of the streamable the return statement of make_stream
constructs (source line 206): the type of container.cbegin() and
container.cend(). -/
def make_stream_constructed : IterTag :=
  IterTag.const_iterator

/-!
Loop characterizations over the list-modelled cursor source.
-/

theorem listPull_next_nil {T : Type} : (listPull T).next [] = (none, []) := rfl

theorem listPull_next_cons {T : Type} (x : T) (xs : List T) :
    (listPull T).next (x :: xs) = (some x, xs) := rfl

theorem countLoop_listPull {T : Type} (S : List T) (acc : Nat) :
    countLoop (listPull T) acc S = (acc + S.length, []) := by
  induction S generalizing acc with
  | nil =>
    rw [countLoop]
    simp [listPull_next_nil]
  | cons x xs ih =>
    rw [countLoop]
    simp only [listPull_next_cons]
    rw [ih]
    simp only [List.length_cons, Prod.mk.injEq, and_true]
    omega

theorem reduceLoop_listPull {T : Type} (f : T → T → T) (acc : T) (S : List T) :
    reduceLoop (listPull T) f acc S = (S.foldl f acc, []) := by
  induction S generalizing acc with
  | nil =>
    rw [reduceLoop]
    simp [listPull_next_nil]
  | cons x xs ih =>
    rw [reduceLoop]
    simp only [listPull_next_cons]
    rw [ih]
    simp

theorem collectLoop_listPull {T : Type} (res : List T) (S : List T) :
    collectLoop (listPull T) res S = (res ++ S, []) := by
  induction S generalizing res with
  | nil =>
    rw [collectLoop]
    simp [listPull_next_nil]
  | cons x xs ih =>
    rw [collectLoop]
    simp only [listPull_next_cons]
    rw [ih]
    simp

theorem minLoop_listPull {T : Type} (has_lth : Bool) (lt gt : T → T → Bool)
    (r : T) (S : List T) :
    minLoop (listPull T) has_lth lt gt r S =
      (S.foldl
        (fun result value =>
          if has_lth then (if lt value result then value else result)
          else (if !(gt value result) then value else result)) r, []) := by
  induction S generalizing r with
  | nil =>
    rw [minLoop]
    simp [listPull_next_nil]
  | cons x xs ih =>
    rw [minLoop]
    simp only [listPull_next_cons]
    rw [ih]
    simp

theorem maxLoop_listPull {T : Type} (has_lth : Bool) (lt gt : T → T → Bool)
    (r : T) (S : List T) :
    maxLoop (listPull T) has_lth lt gt r S =
      (S.foldl
        (fun result value =>
          if has_lth then (if gt value result then value else result)
          else (if !(lt value result) then value else result)) r, []) := by
  induction S generalizing r with
  | nil =>
    rw [maxLoop]
    simp [listPull_next_nil]
  | cons x xs ih =>
    rw [maxLoop]
    simp only [listPull_next_cons]
    rw [ih]
    simp

/-!
Terminal operations over the list-modelled cursor source.
-/

theorem count_listPull {T : Type} (S : List T) :
    Stream.count (listPull T) S = (S.length, []) := by
  rw [Stream.count, countLoop_listPull]
  simp

theorem reduce_listPull_nil {T : Type} (f : T → T → T) :
    Stream.reduce (listPull T) f [] = (none, []) := by
  rw [Stream.reduce]
  simp [listPull_next_nil]

theorem reduce_listPull_cons {T : Type} (f : T → T → T) (x : T) (xs : List T) :
    Stream.reduce (listPull T) f (x :: xs) = (some (xs.foldl f x), []) := by
  rw [Stream.reduce]
  simp only [listPull_next_cons, reduceLoop_listPull]

theorem min_listPull_nil {T : Type} (has_lth : Bool) (lt gt : T → T → Bool) :
    Stream.min (listPull T) has_lth lt gt [] = (none, []) := by
  rw [Stream.min]
  simp [listPull_next_nil]

theorem min_listPull_cons {T : Type} (has_lth : Bool) (lt gt : T → T → Bool)
    (x : T) (xs : List T) :
    Stream.min (listPull T) has_lth lt gt (x :: xs) =
      (some (xs.foldl
        (fun result value =>
          if has_lth then (if lt value result then value else result)
          else (if !(gt value result) then value else result)) x), []) := by
  rw [Stream.min]
  simp only [listPull_next_cons, minLoop_listPull]

theorem max_listPull_nil {T : Type} (has_lth : Bool) (lt gt : T → T → Bool) :
    Stream.max (listPull T) has_lth lt gt [] = (none, []) := by
  rw [Stream.max]
  simp [listPull_next_nil]

theorem max_listPull_cons {T : Type} (has_lth : Bool) (lt gt : T → T → Bool)
    (x : T) (xs : List T) :
    Stream.max (listPull T) has_lth lt gt (x :: xs) =
      (some (xs.foldl
        (fun result value =>
          if has_lth then (if gt value result then value else result)
          else (if !(lt value result) then value else result)) x), []) := by
  rw [Stream.max]
  simp only [listPull_next_cons, maxLoop_listPull]

theorem collect_listPull {T : Type} (S : List T) :
    Stream.collect (listPull T) S = (S, []) := by
  rw [Stream.collect, collectLoop_listPull]
  simp

/-!
The limiting stage: pull-next reductions and the count over a limited
chain.
-/

theorem countLoop_next_none {T : Type} {P : PullSystem T} (acc : Nat)
    {s t : P.State} (h : P.next s = (none, t)) :
    countLoop P acc s = (acc, t) := by
  rw [countLoop]
  split <;> simp_all

theorem countLoop_next_some {T : Type} {P : PullSystem T} (acc : Nat)
    {s t : P.State} {v : T} (h : P.next s = (some v, t)) :
    countLoop P acc s = countLoop P (acc + 1) t := by
  rw [countLoop]
  split <;> simp_all

theorem limitPull_next_stop {T : Type} {P : PullSystem T} {n c : Nat}
    (s : P.State) (h : n ≤ c) :
    (limitPull P n).next (s, c) = (none, (s, c)) := by
  simp [limitPull, h]

theorem limitPull_next_nil {T : Type} {n c : Nat} (h : ¬ n ≤ c) :
    (limitPull (listPull T) n).next (([] : List T), c) = (none, ([], c)) := by
  simp [limitPull, h, listPull]

theorem limitPull_next_cons {T : Type} {n c : Nat} (x : T) (xs : List T)
    (h : ¬ n ≤ c) :
    (limitPull (listPull T) n).next ((x :: xs : List T), c) =
      (some x, (xs, c + 1)) := by
  simp [limitPull, h, listPull]

theorem countLoop_limit_listPull {T : Type} (n : Nat) (S : List T) (acc c : Nat) :
    (countLoop (limitPull (listPull T) n) acc (S, c)).1 =
      acc + Nat.min (n - c) S.length := by
  induction S generalizing acc c with
  | nil =>
    by_cases hc : n ≤ c
    · rw [countLoop_next_none acc (limitPull_next_stop _ hc)]
      simp [Nat.sub_eq_zero_of_le hc]
    · rw [countLoop_next_none acc (limitPull_next_nil hc)]
      simp
  | cons x xs ih =>
    by_cases hc : n ≤ c
    · rw [countLoop_next_none acc (limitPull_next_stop _ hc)]
      simp [Nat.sub_eq_zero_of_le hc]
    · rw [countLoop_next_some acc (limitPull_next_cons x xs hc)]
      rw [ih]
      simp only [List.length_cons, Nat.min_def]
      split <;> split <;> omega

/-!
Tie stability of the min and max replacement folds.  Elements are
key-tagged pairs compared by their first component only, so distinct
elements can compare equal; the tag records pull order positions.
-/

/-- The replacement step min performs with has_lth (source lines 118-122):
the new value replaces the running result exactly when it is strictly
smaller, comparing keys. -/
def keyMinStep {K : Type} [LinearOrder K] (result value : K × Nat) : K × Nat :=
  if decide (value.1 < result.1) then value else result

/-- The replacement step max performs with has_lth (source lines 151-155):
the new value replaces the running result exactly when it is strictly
larger, comparing keys. -/
def keyMaxStep {K : Type} [LinearOrder K] (result value : K × Nat) : K × Nat :=
  if decide (result.1 < value.1) then value else result

theorem keyMinFold_spec {K : Type} [LinearOrder K] (x : K × Nat)
    (xs : List (K × Nat)) :
    List.foldl keyMinStep x xs ∈ x :: xs ∧
      (∀ y ∈ x :: xs, (List.foldl keyMinStep x xs).1 ≤ y.1) ∧
      List.find? (fun y => decide (y.1 ≤ (List.foldl keyMinStep x xs).1))
        (x :: xs) = some (List.foldl keyMinStep x xs) := by
  induction xs generalizing x with
  | nil =>
    refine ⟨by simp, ?_, by simp⟩
    intro y hy
    rw [List.mem_singleton] at hy
    simp [hy]
  | cons v rest ih =>
    rw [List.foldl_cons]
    by_cases hv : v.1 < x.1
    · have hstep : keyMinStep x v = v := by simp [keyMinStep, hv]
      rw [hstep]
      obtain ⟨hmem, hle, hfind⟩ := ih v
      have hmv : (List.foldl keyMinStep v rest).1 ≤ v.1 := hle v (by simp)
      have hmx : (List.foldl keyMinStep v rest).1 < x.1 := lt_of_le_of_lt hmv hv
      refine ⟨List.mem_cons.mpr (Or.inr hmem), ?_, ?_⟩
      · intro y hy
        rcases List.mem_cons.mp hy with h | h
        · exact h ▸ le_of_lt hmx
        · exact hle y h
      · rw [List.find?_cons_of_neg, hfind]
        simp [not_le.mpr hmx]
    · have hstep : keyMinStep x v = x := by simp [keyMinStep, hv]
      rw [hstep]
      obtain ⟨hmem, hle, hfind⟩ := ih x
      have hxv : x.1 ≤ v.1 := le_of_not_lt hv
      have hmx : (List.foldl keyMinStep x rest).1 ≤ x.1 := hle x (by simp)
      refine ⟨?_, ?_, ?_⟩
      · rcases List.mem_cons.mp hmem with h | h
        · exact List.mem_cons.mpr (Or.inl h)
        · exact List.mem_cons.mpr (Or.inr (List.mem_cons.mpr (Or.inr h)))
      · intro y hy
        rcases List.mem_cons.mp hy with h | h
        · exact h ▸ hmx
        · rcases List.mem_cons.mp h with h2 | h2
          · exact h2 ▸ le_trans hmx hxv
          · exact hle y (List.mem_cons.mpr (Or.inr h2))
      · by_cases hpx : x.1 ≤ (List.foldl keyMinStep x rest).1
        · have hx_eq : x = List.foldl keyMinStep x rest := by
            have h2 := hfind
            rw [List.find?_cons_of_pos _ (by simpa using hpx)] at h2
            exact Option.some.inj h2
          rw [List.find?_cons_of_pos _ (by simpa using hpx)]
          exact congrArg some hx_eq
        · have hmltx : (List.foldl keyMinStep x rest).1 < x.1 := not_le.mp hpx
          have h2 := hfind
          rw [List.find?_cons_of_neg _ (by simpa using hpx)] at h2
          rw [List.find?_cons_of_neg _ (by simpa using hpx)]
          rw [List.find?_cons_of_neg, h2]
          have : (List.foldl keyMinStep x rest).1 < v.1 := lt_of_lt_of_le hmltx hxv
          simp [not_le.mpr this]

theorem keyMaxFold_spec {K : Type} [LinearOrder K] (x : K × Nat)
    (xs : List (K × Nat)) :
    List.foldl keyMaxStep x xs ∈ x :: xs ∧
      (∀ y ∈ x :: xs, y.1 ≤ (List.foldl keyMaxStep x xs).1) ∧
      List.find? (fun y => decide ((List.foldl keyMaxStep x xs).1 ≤ y.1))
        (x :: xs) = some (List.foldl keyMaxStep x xs) := by
  induction xs generalizing x with
  | nil =>
    refine ⟨by simp, ?_, by simp⟩
    intro y hy
    rw [List.mem_singleton] at hy
    simp [hy]
  | cons v rest ih =>
    rw [List.foldl_cons]
    by_cases hv : x.1 < v.1
    · have hstep : keyMaxStep x v = v := by simp [keyMaxStep, hv]
      rw [hstep]
      obtain ⟨hmem, hle, hfind⟩ := ih v
      have hmv : v.1 ≤ (List.foldl keyMaxStep v rest).1 := hle v (by simp)
      have hmx : x.1 < (List.foldl keyMaxStep v rest).1 := lt_of_lt_of_le hv hmv
      refine ⟨List.mem_cons.mpr (Or.inr hmem), ?_, ?_⟩
      · intro y hy
        rcases List.mem_cons.mp hy with h | h
        · exact h ▸ le_of_lt hmx
        · exact hle y h
      · rw [List.find?_cons_of_neg, hfind]
        simp [not_le.mpr hmx]
    · have hstep : keyMaxStep x v = x := by simp [keyMaxStep, hv]
      rw [hstep]
      obtain ⟨hmem, hle, hfind⟩ := ih x
      have hxv : v.1 ≤ x.1 := le_of_not_lt hv
      have hmx : x.1 ≤ (List.foldl keyMaxStep x rest).1 := hle x (by simp)
      refine ⟨?_, ?_, ?_⟩
      · rcases List.mem_cons.mp hmem with h | h
        · exact List.mem_cons.mpr (Or.inl h)
        · exact List.mem_cons.mpr (Or.inr (List.mem_cons.mpr (Or.inr h)))
      · intro y hy
        rcases List.mem_cons.mp hy with h | h
        · exact h ▸ hmx
        · rcases List.mem_cons.mp h with h2 | h2
          · exact h2 ▸ le_trans hxv hmx
          · exact hle y (List.mem_cons.mpr (Or.inr h2))
      · by_cases hpx : (List.foldl keyMaxStep x rest).1 ≤ x.1
        · have hx_eq : x = List.foldl keyMaxStep x rest := by
            have h2 := hfind
            rw [List.find?_cons_of_pos _ (by simpa using hpx)] at h2
            exact Option.some.inj h2
          rw [List.find?_cons_of_pos _ (by simpa using hpx)]
          exact congrArg some hx_eq
        · have hmltx : x.1 < (List.foldl keyMaxStep x rest).1 := not_le.mp hpx
          have h2 := hfind
          rw [List.find?_cons_of_neg _ (by simpa using hpx)] at h2
          rw [List.find?_cons_of_neg _ (by simpa using hpx)]
          rw [List.find?_cons_of_neg, h2]
          have : v.1 < (List.foldl keyMaxStep x rest).1 := lt_of_le_of_lt hxv hmltx
          simp [not_le.mpr this]


/-!
Specializations of min and max for an element type providing operator<
(has_lth): the taken branch replaces on a strict comparison only.
-/

theorem min_listPull_cons_lth {T : Type} (lt gt : T → T → Bool) (x : T)
    (xs : List T) :
    Stream.min (listPull T) true lt gt (x :: xs) =
      (some (xs.foldl
        (fun result value => if lt value result then value else result) x),
        []) := by
  rw [min_listPull_cons]
  simp

theorem max_listPull_cons_lth {T : Type} (lt gt : T → T → Bool) (x : T)
    (xs : List T) :
    Stream.max (listPull T) true lt gt (x :: xs) =
      (some (xs.foldl
        (fun result value => if gt value result then value else result) x),
        []) := by
  rw [max_listPull_cons]
  simp

theorem min_key_cons {K : Type} [LinearOrder K] (x : K × Nat)
    (xs : List (K × Nat)) :
    (Stream.min (listPull (K × Nat)) true
        (fun a b => decide (a.1 < b.1)) (fun a b => decide (b.1 < a.1))
        (x :: xs)).1 = some (List.foldl keyMinStep x xs) := by
  rw [min_listPull_cons_lth]
  rfl

theorem max_key_cons {K : Type} [LinearOrder K] (x : K × Nat)
    (xs : List (K × Nat)) :
    (Stream.max (listPull (K × Nat)) true
        (fun a b => decide (a.1 < b.1)) (fun a b => decide (b.1 < a.1))
        (x :: xs)).1 = some (List.foldl keyMaxStep x xs) := by
  rw [max_listPull_cons_lth]
  rfl

/-!
Claims.
-/

/-- C1: for an element type providing only operator>, min as implemented
replaces the running result whenever the new element is NOT strictly
greater, so a subsequent element whose key is equal to the running result
does replace it: on the pull sequence [(0, 0), (0, 1)] of two key-equal
elements compared by key through operator>, min returns the second element
(0, 1) rather than the first minimal element (0, 0) in pull order. -/
theorem C1_min_gth_replaces_on_equal :
    (Stream.min (listPull (Nat × Nat)) false
      (fun a b => decide (a.1 < b.1)) (fun a b => decide (b.1 < a.1))
      [(0, 0), (0, 1)]).1 = some (0, 1) := by
  rw [min_listPull_cons]
  rfl

/-- C2: the if-constexpr inside max branches on has_lth, yet the branch it
keeps names the other operator: with only operator< provided the
instantiated comparison is operator>, and with only operator> provided it
is operator<; in both single-operator cases the static_assert admits the
type but the kept branch names an operator the type does not provide, so
the instantiation of max is ill-formed (min, by contrast, names the
operator it branched on in both cases). -/
theorem C2_max_single_operator_ill_formed :
    (CmpAvail.mk true false).minmax_allowed = true ∧
    maxInstantiationOk (CmpAvail.mk true false) = false ∧
    (CmpAvail.mk false true).minmax_allowed = true ∧
    maxInstantiationOk (CmpAvail.mk false true) = false ∧
    minInstantiationOk (CmpAvail.mk true false) = true ∧
    minInstantiationOk (CmpAvail.mk false true) = true := by
  decide

/-- C3 counterexample: a callable taking the element type by non-const
lvalue reference and returning void satisfies filter's requires-clause
(convertibility to std function void of T-reference) although it is not
convertible to a function from T to bool, so filter does not accept
exactly the predicates of shape T to bool. -/
theorem C3_filter_accepts_non_predicate :
    filterAccepts (Callable.mk ParamMode.byLRef RetKind.retVoid) = true ∧
    predicateShape (Callable.mk ParamMode.byLRef RetKind.retVoid) = false := by
  decide

/-- C3 amended: filter accepts exactly the callables invocable with an
lvalue of the element type, irrespective of return type — the requires
clause written in the source; this differs from convertibility to a
predicate T to bool in both directions: a void-returning lvalue consumer
is accepted, and a bool-returning callable taking its argument by rvalue
reference is rejected. -/
theorem C3_filter_constraint_is_lvalue_invocability :
    (∀ f : Callable, filterAccepts f = invocableWithLValue f.param) ∧
    (∃ f : Callable, filterAccepts f = true ∧ predicateShape f = false) ∧
    (∃ f : Callable, filterAccepts f = false ∧ predicateShape f = true) := by
  refine ⟨fun f => rfl, ?_, ?_⟩
  · exact ⟨Callable.mk ParamMode.byLRef RetKind.retVoid, by decide⟩
  · exact ⟨Callable.mk ParamMode.byRRef RetKind.retBool, by decide⟩

/-- C4: reduce returns empty on an empty pipeline; otherwise it seeds the
accumulator with the first pulled element and folds every subsequent
element into it left to right in pull order, so a pipeline yielding
[a, b, c] reduces to f (f a b) c. -/
theorem C4_reduce_left_fold {T : Type} (f : T → T → T) (a b c : T) :
    (Stream.reduce (listPull T) f ([] : List T)).1 = none ∧
    (∀ (x : T) (xs : List T),
      (Stream.reduce (listPull T) f (x :: xs)).1 = some (xs.foldl f x)) ∧
    (Stream.reduce (listPull T) f [a, b, c]).1 = some (f (f a b) c) := by
  refine ⟨?_, ?_, ?_⟩
  · rw [reduce_listPull_nil]
  · intro x xs
    rw [reduce_listPull_cons]
  · rw [reduce_listPull_cons]
    rfl

/-- C5: counting a pipeline over S limited to n elements yields the minimum
of n and the length of S; and once the limiting stage's consumed counter
has reached the maximum, pull-next returns empty and leaves the state (in
particular the upstream state) unchanged, so the stage never pulls
upstream again. -/
theorem C5_limit_count_min {T : Type} (S : List T) (n : Nat)
    (P : PullSystem T) (u : P.State) (c : Nat) (h : n ≤ c) :
    (Stream.count (Stream.limit (listPull T) n S).1
        (Stream.limit (listPull T) n S).2).1 = Nat.min n S.length ∧
    (limitPull P n).next (u, c) = (none, (u, c)) := by
  constructor
  · show (Stream.count (limitPull (listPull T) n) (S, 0)).1 = Nat.min n S.length
    rw [Stream.count, countLoop_limit_listPull]
    simp
  · exact limitPull_next_stop u h

/-- C5 witness: a three-element pipeline limited to 2 counts 2 elements,
and at counter 2 the limiting stage is exhausted in place. -/
theorem C5_limit_count_min_witness :
    2 ≤ 2 ∧
      ((Stream.count (Stream.limit (listPull Nat) 2 [5, 3, 8]).1
          (Stream.limit (listPull Nat) 2 [5, 3, 8]).2).1 =
          Nat.min 2 [5, 3, 8].length ∧
        (limitPull (listPull Nat) 2).next ([8], 2) = (none, ([8], 2))) :=
  ⟨by decide, C5_limit_count_min [5, 3, 8] 2 (listPull Nat) [8] 2 (by decide)⟩

/-- C6: round trip: building a stream from a container and collecting into
the same container template reproduces the container's elements in their
original order. -/
theorem C6_round_trip {T : Type} (container : List T) :
    (Stream.collect (listPull T) (make_stream container)).1 = container := by
  rw [make_stream, collect_listPull]

/-- C7 counterexample: find_first is a single pull-next: on the pipeline
over [1, 2] it returns the first element but leaves the chain in a state
that still yields 2, so first does not drive the full chain via repeated
pull-next until the chain reports empty. -/
theorem C7_first_leaves_chain_unexhausted :
    Stream.find_first (listPull Nat) [1, 2] = (some 1, [2]) ∧
    (listPull Nat).next [2] = (some 2, []) := by
  exact ⟨rfl, rfl⟩

/-- C7 amended: reduce, sum, min, max, count and collect drive the chain
via repeated pull-next until it reports empty — their final state is the
exhausted source — and none restarts a chain; find_first instead performs
exactly one pull-next, returning the first pulled element, or empty when
the chain is immediately exhausted. -/
theorem C7_terminals_drive_to_exhaustion {T : Type} (S : List T)
    (f : T → T → T) (has_lth : Bool) (lt gt : T → T → Bool) (SN : List Nat) :
    (Stream.reduce (listPull T) f S).2 = [] ∧
    (Stream.sum (listPull Nat) SN).2 = [] ∧
    (Stream.min (listPull T) has_lth lt gt S).2 = [] ∧
    (Stream.max (listPull T) has_lth lt gt S).2 = [] ∧
    (Stream.count (listPull T) S).2 = [] ∧
    (Stream.collect (listPull T) S).2 = [] ∧
    Stream.find_first (listPull T) S = (S.head?, S.tail) := by
  refine ⟨?_, ?_, ?_, ?_, ?_, ?_, ?_⟩
  · cases S with
    | nil => rw [reduce_listPull_nil]
    | cons x xs => rw [reduce_listPull_cons]
  · rw [Stream.sum]
    cases SN with
    | nil => rw [reduce_listPull_nil]
    | cons x xs => rw [reduce_listPull_cons]
  · cases S with
    | nil => rw [min_listPull_nil]
    | cons x xs => rw [min_listPull_cons]
  · cases S with
    | nil => rw [max_listPull_nil]
    | cons x xs => rw [max_listPull_cons]
  · rw [count_listPull]
  · rw [collect_listPull]
  · cases S with
    | nil => rfl
    | cons x xs => rfl

/-- C8: sum, min and max return empty on an empty pipeline and return the
single element of a one-element pipeline, for every comparison
configuration. -/
theorem C8_empty_and_singleton {T : Type} [Add T] (a : T) (has_lth : Bool)
    (lt gt : T → T → Bool) :
    (Stream.sum (listPull T) ([] : List T)).1 = none ∧
    (Stream.min (listPull T) has_lth lt gt []).1 = none ∧
    (Stream.max (listPull T) has_lth lt gt []).1 = none ∧
    (Stream.sum (listPull T) [a]).1 = some a ∧
    (Stream.min (listPull T) has_lth lt gt [a]).1 = some a ∧
    (Stream.max (listPull T) has_lth lt gt [a]).1 = some a := by
  refine ⟨?_, ?_, ?_, ?_, ?_, ?_⟩
  · rw [Stream.sum, reduce_listPull_nil]
  · rw [min_listPull_nil]
  · rw [max_listPull_nil]
  · rw [Stream.sum, reduce_listPull_cons]
    rfl
  · rw [min_listPull_cons]
    rfl
  · rw [max_listPull_cons]
    rfl

/-- C9: the declared return type of make_reverse_stream names a streamable
over the container's const_iterator while the expression it returns builds
the streamable from the crbegin/crend cursor pair, whose type is the
distinct const_reverse_iterator: the declaration cannot type-check for an
ordinary reverse-iterable container, whereas make_stream's declared and
constructed cursor types agree. -/
theorem C9_make_reverse_stream_iterator_mismatch :
    make_reverse_stream_declared ≠ make_reverse_stream_constructed ∧
    make_stream_declared = make_stream_constructed := by
  decide

/-- C10: with operator< available (has_lth), min replaces the running
result only on a strictly smaller key and max only on a strictly larger
key, so ties never replace: over key-tagged pairs the returned element is
minimal (respectively maximal) and is the first element of the pull
sequence whose key attains the optimum. -/
theorem C10_min_max_tie_stability {K : Type} [LinearOrder K]
    (x : K × Nat) (xs : List (K × Nat)) :
    (∃ m, (Stream.min (listPull (K × Nat)) true
        (fun a b => decide (a.1 < b.1)) (fun a b => decide (b.1 < a.1))
        (x :: xs)).1 = some m ∧
      m ∈ x :: xs ∧ (∀ y ∈ x :: xs, m.1 ≤ y.1) ∧
      List.find? (fun y => decide (y.1 ≤ m.1)) (x :: xs) = some m) ∧
    (∃ m, (Stream.max (listPull (K × Nat)) true
        (fun a b => decide (a.1 < b.1)) (fun a b => decide (b.1 < a.1))
        (x :: xs)).1 = some m ∧
      m ∈ x :: xs ∧ (∀ y ∈ x :: xs, y.1 ≤ m.1) ∧
      List.find? (fun y => decide (m.1 ≤ y.1)) (x :: xs) = some m) := by
  constructor
  · exact ⟨List.foldl keyMinStep x xs, min_key_cons x xs,
      (keyMinFold_spec x xs).1, (keyMinFold_spec x xs).2.1,
      (keyMinFold_spec x xs).2.2⟩
  · exact ⟨List.foldl keyMaxStep x xs, max_key_cons x xs,
      (keyMaxFold_spec x xs).1, (keyMaxFold_spec x xs).2.1,
      (keyMaxFold_spec x xs).2.2⟩
